import Mathlib

/-!
Verification of the site-crawling and content-extraction engine.

A shallow embedding of the crawler in `simple_scraper.py` (functions
`scrape_webpage`, `get_links`, `scrape_website`, `save_results`), of the
single-page scraper `scrape_url` in `chatbot_with_url_scraping.py`, and of the
JSON reader `load_scraped_data` in `chatbot_with_context.py`.

Modelling conventions:
* Python strings are Lean `String`s; character-level operations are carried out
  on `String.data : List Char`.
* HTML documents (BeautifulSoup trees) are modelled by the mutual inductive
  `Node` / `NodeList`: an element node carries a tag, an attribute association
  list, and its children; a text node carries its string.
* The network is modelled as a deterministic finite site: an association list
  from URL strings to parsed documents.  A URL outside the list models every
  kind of fetch failure (non-success status, timeout, transport error): the
  Python code collapses all of these into one caught exception.
* `datetime.now()` is modelled by an explicit timestamp parameter threaded to
  the record constructor; it never influences control flow.
* A Python `set` of strings built incrementally is modelled as a duplicate-free
  list in insertion order; iteration order of the set is modelled as that list's
  order (CPython's actual set iteration order is unspecified hash order, and no
  theorem below depends on which enumeration order is chosen).
-/

/-! ## Character and string helpers (Python `str` operations) -/

/-- The characters Python `str.strip()` removes. -/
def isPySpace (c : Char) : Bool :=
  c = ' ' || c = '\t' || c = '\n' || c = '\r' || c = '\x0b' || c = '\x0c'

/-- Remove the maximal run of `p`-characters at the end of a list
(the tail half of Python `str.strip()`). -/
def dropTrailing (p : Char → Bool) : List Char → List Char
  | [] => []
  | c :: cs =>
    match dropTrailing p cs with
    | [] => if p c then [] else [c]
    | r => c :: r

/-- Python `s.strip()`. -/
def pyStrip (s : String) : String :=
  ⟨dropTrailing isPySpace (s.data.dropWhile isPySpace)⟩

/-- Python `s[:n]` (slicing counts code points, as `List Char` does). -/
def pyTake (n : Nat) (s : String) : String := ⟨s.data.take n⟩

/-- Split a character list at every occurrence of `c`; the separators are not
kept.  `splitOnChar c [] = [[]]`, matching Python `"".split(c)`. -/
def splitOnChar (c : Char) : List Char → List (List Char)
  | [] => [[]]
  | x :: xs =>
    if x = c then [] :: splitOnChar c xs
    else
      match splitOnChar c xs with
      | [] => [[x]]
      | p :: ps => (x :: p) :: ps

/-- Python `s.splitlines()` for newline-separated text: split on `'\n'`,
dropping the final empty piece produced by a trailing newline, and returning
`[]` on the empty string. -/
def pySplitlines (s : String) : List String :=
  if s.data.isEmpty then []
  else
    let parts := (splitOnChar '\n' s.data).map (fun cs => (⟨cs⟩ : String))
    if s.data.getLast? = some '\n' then parts.dropLast else parts

/-- Python `'\n'.join(ls)` (also the join performed by BeautifulSoup
`get_text(separator='\n')`). -/
def joinNL : List String → String
  | [] => ""
  | [s] => s
  | s :: rest => s ++ "\n" ++ joinNL rest

/-- The line clean-up shared by both scrapers:
`lines = [line.strip() for line in text.splitlines() if line.strip()]`
followed by `'\n'.join(lines)`. -/
def cleanText (t : String) : String :=
  joinNL (((pySplitlines t).map pyStrip).filter (fun l => l != ""))

/-! ## URL model (`urllib.parse.urlparse` / `urljoin`, fragment stripping)

The crawler uses only: the netloc of a parsed URL, relative resolution against
a base URL, and `full_url.split('#')[0]`.  The functions below model
`urlparse`/`urljoin` for the http-style URLs the crawler handles: a scheme is
recognised as a run of non-separator characters followed by `"://"`; paths are
kept as opaque strings (no dot-segment normalisation, faithful to how the
crawler compares URLs purely syntactically). -/

/-- Python `full_url.split('#')[0]`: everything before the first `'#'`. -/
def stripFragment (s : String) : String := ⟨s.data.takeWhile (fun c => c != '#')⟩

/-- The fragment of a URL string: everything after the first `'#'` (empty if
there is no `'#'`). -/
def fragmentOf (s : String) : String := ⟨(s.data.dropWhile (fun c => c != '#')).drop 1⟩

/-- Split `scheme://rest` into `(scheme, rest)`; `none` when the string has no
`"://"` before any `/`, `?` or `#`. -/
def schemeSplit : List Char → Option (List Char × List Char)
  | [] => none
  | c :: cs =>
    if c = ':' then
      match cs with
      | '/' :: '/' :: rest => some ([], rest)
      | _ => none
    else if c = '/' || c = '?' || c = '#' then none
    else
      match schemeSplit cs with
      | some (sch, rest) => some (c :: sch, rest)
      | none => none

/-- The components `urllib.parse.urlparse` exposes, with path and query kept
together as one opaque string. -/
structure UrlParts where
  scheme : String
  netloc : String
  path : String
  fragment : String
deriving DecidableEq

/-- Model of `urllib.parse.urlparse` for http-style URLs. -/
def urlparse (s : String) : UrlParts :=
  let noFrag := s.data.takeWhile (fun c => c != '#')
  let frag := fragmentOf s
  match schemeSplit noFrag with
  | some (sch, rest) =>
    let nl := rest.takeWhile (fun c => c != '/' && c != '?')
    ⟨⟨sch⟩, ⟨nl⟩, ⟨rest.drop nl.length⟩, frag⟩
  | none =>
    match noFrag with
    | '/' :: '/' :: rest =>
      let nl := rest.takeWhile (fun c => c != '/' && c != '?')
      ⟨"", ⟨nl⟩, ⟨rest.drop nl.length⟩, frag⟩
    | _ => ⟨"", "", ⟨noFrag⟩, frag⟩

/-- Reassemble URL components into a string. -/
def renderUrl (u : UrlParts) : String :=
  (if u.scheme = "" then (if u.netloc = "" then "" else "//") else u.scheme ++ "://")
    ++ u.netloc ++ u.path
    ++ (if u.fragment = "" then "" else "#" ++ u.fragment)

/-- The directory part of a path: everything up to and including the last `/`,
or `"/"` when the path has none (so joining a bare host with a relative
reference yields `host/ref`). -/
def dirname (p : String) : String :=
  let r := p.data.reverse.dropWhile (fun c => c != '/')
  if r.isEmpty then "/" else ⟨r.reverse⟩

/-- Model of `urllib.parse.urljoin base url` for http-style URLs:
an absolute reference wins outright; a scheme-relative reference takes the
base's scheme; a rooted path replaces the base path; any other non-empty path
is resolved in the directory of the base path; a bare-fragment reference keeps
the base location. -/
def urljoin (base url : String) : String :=
  if url = "" then base
  else
    let b := urlparse base
    let h := urlparse url
    if h.scheme ≠ "" then url
    else if h.netloc ≠ "" then renderUrl ⟨b.scheme, h.netloc, h.path, h.fragment⟩
    else if h.path = "" then renderUrl ⟨b.scheme, b.netloc, b.path, h.fragment⟩
    else if h.path.data.head? = some '/' then renderUrl ⟨b.scheme, b.netloc, h.path, h.fragment⟩
    else renderUrl ⟨b.scheme, b.netloc, dirname b.path ++ h.path, h.fragment⟩

example : urljoin "http://h/" "f" = "http://h/f" := rfl
example : urljoin "http://h/a/b" "c" = "http://h/a/c" := rfl
example : urljoin "http://h/" "/x/y" = "http://h/x/y" := rfl
example : urljoin "http://h/" "http://other/z" = "http://other/z" := rfl
example : urljoin "http://h/" "//other/z" = "http://other/z" := rfl
example : (urlparse "http://h/p?q=1#frag").netloc = "h" := rfl
example : stripFragment "http://h/p#frag" = "http://h/p" := rfl

/-! ## HTML document model (BeautifulSoup trees) -/

mutual
/-- A node of a parsed HTML document: a text node, or an element with a tag,
an attribute list and children. -/
inductive Node where
  | text (s : String)
  | elem (tag : String) (attrs : List (String × String)) (children : NodeList)
/-- A sequence of sibling nodes.  (A mutual inductive rather than `List Node`
so that the traversals below are structural recursions the kernel can
evaluate.) -/
inductive NodeList where
  | nil
  | cons (head : Node) (tail : NodeList)
end

/-- Build a `NodeList` from a `List Node` (for writing documents). -/
def NodeList.ofList : List Node → NodeList
  | [] => .nil
  | n :: rest => .cons n (NodeList.ofList rest)

/-- Attribute lookup on an element's attribute list. -/
def getAttr (attrs : List (String × String)) (k : String) : Option String :=
  (attrs.find? (fun p => p.1 == k)).map (·.2)

/-- Returns `true` iff the node is an element with the given tag. -/
def isTag (t : String) : Node → Bool
  | .text _ => false
  | .elem tg _ _ => tg == t

mutual
/-- All text-node strings below a node, in document order
(BeautifulSoup's `strings` of a tag). -/
def stringsN : Node → List String
  | .text s => [s]
  | .elem _ _ cs => stringsL cs
/-- All text-node strings of a node sequence, in document order. -/
def stringsL : NodeList → List String
  | .nil => []
  | .cons n rest => stringsN n ++ stringsL rest
end

mutual
/-- Model of `soup([...]).decompose()` applied below a single node: remove every
element whose tag is in `noise`, together with its whole subtree. -/
def decomposeN (noise : List String) : Node → Node
  | .text s => .text s
  | .elem t a cs => .elem t a (decomposeL noise cs)
/-- Model of `soup([...]).decompose()` on a node sequence. -/
def decomposeL (noise : List String) : NodeList → NodeList
  | .nil => .nil
  | .cons (.text s) rest => .cons (.text s) (decomposeL noise rest)
  | .cons (.elem t a cs) rest =>
    if t ∈ noise then decomposeL noise rest
    else .cons (.elem t a (decomposeL noise cs)) (decomposeL noise rest)
end

mutual
/-- BeautifulSoup `find(t)` below a single node (the node itself first, then
its descendants in document order). -/
def findTagN (t : String) : Node → Option Node
  | .text _ => none
  | .elem tg a cs => if tg = t then some (.elem tg a cs) else findTagL t cs
/-- BeautifulSoup `soup.find(t)`: first element with tag `t` in document
order, or `none`. -/
def findTagL (t : String) : NodeList → Option Node
  | .nil => none
  | .cons n rest =>
    match findTagN t n with
    | some r => some r
    | none => findTagL t rest
end

mutual
/-- All nodes below (and including) a node, in document (preorder) order. -/
def nodesN : Node → List Node
  | .text s => [.text s]
  | .elem tg a cs => .elem tg a cs :: nodesL cs
/-- All nodes of a node sequence, in document (preorder) order. -/
def nodesL : NodeList → List Node
  | .nil => []
  | .cons n rest => nodesN n ++ nodesL rest
end

mutual
/-- Tags of all elements below a node, in document order. -/
def tagsN : Node → List String
  | .text _ => []
  | .elem t _ cs => t :: tagsL cs
/-- Tags of all elements of a node sequence, in document order. -/
def tagsL : NodeList → List String
  | .nil => []
  | .cons n rest => tagsN n ++ tagsL rest
end

mutual
/-- Model of `soup.find_all('a', href=True)` below a single node, keeping each anchor's
`href` value, in document order. -/
def anchorHrefsN : Node → List String
  | .text _ => []
  | .elem t attrs cs =>
    (if t = "a" then
       match getAttr attrs "href" with
       | some v => [v]
       | none => []
     else []) ++ anchorHrefsL cs
/-- The `href` values of all anchors of a node sequence, in document order. -/
def anchorHrefsL : NodeList → List String
  | .nil => []
  | .cons n rest => anchorHrefsN n ++ anchorHrefsL rest
end

/-- BeautifulSoup `tag.get_text()` (no separator, no stripping): the
concatenation of all text below the node. -/
def getTextDefault (n : Node) : String := String.join (stringsN n)

/-- BeautifulSoup `tag.get_text(separator='\n', strip=True)`: each string is
stripped, whitespace-only strings are dropped, and the rest are joined by
newlines. -/
def getTextStripN (n : Node) : String :=
  joinNL (((stringsN n).map pyStrip).filter (fun l => l != ""))

/-- Model of `soup.get_text(separator='\n', strip=True)` on the whole document. -/
def getTextStripL (l : NodeList) : String :=
  joinNL (((stringsL l).map pyStrip).filter (fun l => l != ""))

/-! ## Extraction (`scrape_webpage` in `simple_scraper.py`, and the duplicated
body of `scrape_url` in `chatbot_with_url_scraping.py`) -/

/-- The tags removed before text extraction:
`soup(["script", "style", "nav", "footer", "header"])`. -/
def noiseTags : List String := ["script", "style", "nav", "footer", "header"]

/-- The pure extraction pipeline shared verbatim by `scrape_webpage`
(`simple_scraper.py`) and `scrape_url` (`chatbot_with_url_scraping.py`):
decompose noise elements; title from the `title` element or the URL; content
from `main`, else `article`, else `body`, else the whole document; then the
line clean-up.  Returns `(title, cleaned text)`. -/
def extractPage (doc : NodeList) (url : String) : String × String :=
  let soup := decomposeL noiseTags doc
  let title :=
    match findTagL "title" soup with
    | some n => getTextDefault n
    | none => url
  let mainContent := (findTagL "main" soup <|> findTagL "article" soup) <|> findTagL "body" soup
  let text :=
    match mainContent with
    | some n => getTextStripN n
    | none => getTextStripL soup
  (title, cleanText text)

/-- A deterministic finite site: URL → parsed document.  Absence models a
fetch failure (`requests` exception / non-success status). -/
def Site := List (String × NodeList)

/-- One HTTP GET: look the URL up in the site. -/
def fetchSite (site : Site) (url : String) : Option NodeList :=
  (site.find? (fun p => p.1 == url)).map (·.2)

/-- One crawl record, as built by `scrape_webpage`:
`{'url': ..., 'title': ..., 'content': ..., 'length': len(text), 'timestamp': ...}`. -/
structure CrawlRecord where
  url : String
  title : String
  content : String
  length : Nat
  timestamp : String
deriving DecidableEq

/-- Model of `scrape_webpage(url)` from `simple_scraper.py`: fetch, extract, and build
the record; `none` models the `except` branch returning `None`. -/
def scrape_webpage (site : Site) (ts : String) (url : String) : Option CrawlRecord :=
  match fetchSite site url with
  | none => none
  | some doc =>
    let p := extractPage doc url
    some ⟨url, p.1, p.2, p.2.length, ts⟩

/-- The success payload of `scrape_url` from `chatbot_with_url_scraping.py`:
`{'success': True, 'url', 'title', 'content': text[:15000], 'length': len(text)}`. -/
structure UrlScrapeResult where
  url : String
  title : String
  content : String
  length : Nat
deriving DecidableEq

/-- Model of `scrape_url(url)` from `chatbot_with_url_scraping.py`: same extraction as
`scrape_webpage`, but the content is truncated to 15000 characters while
`length` reports the untruncated text length.  `none` models the
`{'success': False, ...}` branch. -/
def scrape_url (site : Site) (url : String) : Option UrlScrapeResult :=
  match fetchSite site url with
  | none => none
  | some doc =>
    let p := extractPage doc url
    some ⟨url, p.1, pyTake 15000 p.2, p.2.length⟩

/-! ## Link extraction (`get_links` in `simple_scraper.py`) -/

/-- Add to a Python set, modelled as insertion-ordered duplicate-free list. -/
def setAdd (l : List String) (u : String) : List String :=
  if u ∈ l then l else l ++ [u]

/-- The body of the `for link in soup.find_all('a', href=True)` loop:
resolve the href against `base_url`, keep it only if its netloc equals the
base's netloc, and add it to the set with its fragment stripped. -/
def linkFold (base_url : String) (links : List String) (href : String) : List String :=
  let full_url := urljoin base_url href
  if (urlparse full_url).netloc = (urlparse base_url).netloc then
    setAdd links (stripFragment full_url)
  else links

/-- Model of `get_links(url, base_url)` from `simple_scraper.py`.  Note the function
performs its own HTTP GET of `url` (without `raise_for_status`); an exception
yields the empty set. -/
def get_links (site : Site) (url : String) (base_url : String) : List String :=
  match fetchSite site url with
  | none => []
  | some doc => (anchorHrefsL doc).foldl (linkFold base_url) []

/-! ## The crawl loop (`scrape_website` in `simple_scraper.py`)

The state carries the program variables `visited`, `to_visit`, `results`
plus four instrumentation histories (`fetchLog`, `popLog`, `pushLog`,
`successLog`) that record events for the theorems below; the instrumentation
never influences control flow. -/

/-- The crawl-loop state.  `visited` and `fetchLog` are URL strings;
`toVisit`, `popLog`, `pushLog`, `successLog` are `(url, depth)` pairs. -/
structure CrawlState where
  visited : List String
  toVisit : List (String × Nat)
  results : List CrawlRecord
  fetchLog : List String
  popLog : List (String × Nat)
  pushLog : List (String × Nat)
  successLog : List (String × Nat)
deriving DecidableEq

/-- One iteration of the `while` body of `scrape_website`: pop the head entry;
skip it if the URL is visited or its depth exceeds `max_depth`; otherwise
fetch it with `scrape_webpage` (one GET, logged); on success append the record,
mark the URL visited, and if `depth < max_depth` call `get_links` (a second
GET of the same URL, logged) and append every link not yet visited with depth
`depth + 1`. -/
def crawlStep (site : Site) (ts start_url : String) (maxDepth : Nat)
    (s : CrawlState) : CrawlState :=
  match s.toVisit with
  | [] => s
  | (url, depth) :: rest =>
    let s0 : CrawlState :=
      { s with toVisit := rest, popLog := s.popLog ++ [(url, depth)] }
    if url ∈ s.visited ∨ maxDepth < depth then s0
    else
      let s1 : CrawlState := { s0 with fetchLog := s0.fetchLog ++ [url] }
      match scrape_webpage site ts url with
      | none => s1
      | some r =>
        let s2 : CrawlState :=
          { s1 with results := s1.results ++ [r],
                    visited := s1.visited ++ [url],
                    successLog := s1.successLog ++ [(url, depth)] }
        if depth < maxDepth then
          let entries := ((get_links site url start_url).filter
            (fun l => decide (l ∉ s2.visited))).map (fun l => (l, depth + 1))
          { s2 with fetchLog := s2.fetchLog ++ [url],
                    toVisit := s2.toVisit ++ entries,
                    pushLog := s2.pushLog ++ entries }
        else s2

/-- The `while to_visit and len(visited) < max_pages` loop, with explicit
fuel.  The loop body is `crawlStep`; every theorem below holds for every fuel
value, so the fuel is only a device to express the recursion. -/
def crawlLoop (site : Site) (ts start_url : String) (maxPages maxDepth : Nat) :
    Nat → CrawlState → CrawlState
  | 0, s => s
  | fuel + 1, s =>
    if s.toVisit = [] ∨ maxPages ≤ s.visited.length then s
    else crawlLoop site ts start_url maxPages maxDepth fuel
      (crawlStep site ts start_url maxDepth s)

/-- The initial state of `scrape_website`: `visited = set()`,
`to_visit = [(start_url, 0)]`, `results = []`. -/
def initState (start_url : String) : CrawlState :=
  ⟨[], [(start_url, 0)], [], [], [], [(start_url, 0)], []⟩

/-- Total number of anchors of the site: a crude bound on how many frontier
entries one successful page can generate. -/
def totalAnchors (site : Site) : Nat :=
  (site.map (fun p => (anchorHrefsL p.2).length)).sum

/-- Enough fuel for the loop to run to completion: the queue receives at most
one seed entry plus `maxPages * totalAnchors` pushed entries, and every
iteration pops one entry. -/
def siteFuel (site : Site) (maxPages : Nat) : Nat :=
  2 + maxPages * (1 + totalAnchors site)

/-- Model of `scrape_website(start_url, max_pages, max_depth)` from
`simple_scraper.py`; the returned state's `results` field is the function's
return value. -/
def scrape_website (site : Site) (ts : String) (start_url : String)
    (maxPages maxDepth : Nat) : CrawlState :=
  crawlLoop site ts start_url maxPages maxDepth (siteFuel site maxPages)
    (initState start_url)

/-! ## JSON serialization (`save_results(results, 'json')` in
`simple_scraper.py`) and re-parsing (`load_scraped_data` in
`chatbot_with_context.py`)

File I/O itself is not modelled: `json.dump` is modelled as producing the JSON
value written to the file, and `json.load` as consuming that value; the
textual JSON encoding between them is faithful for strings and integers. -/

/-- JSON values (the fragment the scraper emits: strings, naturals, arrays,
objects). -/
inductive Json where
  | str (s : String)
  | num (n : Nat)
  | arr (elems : List Json)
  | obj (fields : List (String × Json))

/-- The dict literal built by `scrape_webpage` as `json.dump` serializes it. -/
def encodeRecord (r : CrawlRecord) : Json :=
  .obj [("url", .str r.url), ("title", .str r.title), ("content", .str r.content),
        ("length", .num r.length), ("timestamp", .str r.timestamp)]

/-- Model of `save_results(results, 'json')`: `json.dump(results, f)` — one array with
one object per record, in order. -/
def save_results_json (results : List CrawlRecord) : Json :=
  .arr (results.map encodeRecord)

/-- Python `item['key']` on a parsed JSON object. -/
def jsonField (j : Json) (k : String) : Option Json :=
  match j with
  | .obj fields => (fields.find? (fun p => p.1 == k)).map (·.2)
  | _ => none

/-- Read a JSON value as a string. -/
def asStr : Option Json → Option String
  | some (.str s) => some s
  | _ => none

/-- Read a JSON value as a natural number. -/
def asNum : Option Json → Option Nat
  | some (.num n) => some n
  | _ => none

/-- The fields a reader of the JSON file observes for one record
(`load_scraped_data` in `chatbot_with_context.py` reads `url`, `title`,
`content`; `length` and `timestamp` are also present in the file). -/
structure LoadedRecord where
  url : String
  title : String
  content : String
  length : Nat
  timestamp : String
deriving DecidableEq

/-- Parse one record object back out of the JSON file. -/
def parseRecord (j : Json) : Option LoadedRecord :=
  match asStr (jsonField j "url"), asStr (jsonField j "title"),
        asStr (jsonField j "content"), asNum (jsonField j "length"),
        asStr (jsonField j "timestamp") with
  | some u, some t, some c, some n, some ts => some ⟨u, t, c, n, ts⟩
  | _, _, _, _, _ => none

/-- Parse every element of the loaded array, in order. -/
def parseRecords : List Json → Option (List LoadedRecord)
  | [] => some []
  | j :: js =>
    match parseRecord j, parseRecords js with
    | some r, some rs => some (r :: rs)
    | _, _ => none

/-- Model of `json.load` on the file written by `save_results(..., 'json')`, projected
to the record fields, in file order. -/
def load_scraped_json (j : Json) : Option (List LoadedRecord) :=
  match j with
  | .arr elems => parseRecords elems
  | _ => none

/-! ## Concrete sites used by the counterexamples and witnesses -/

/-- An anchor element `<a href=...>label</a>`. -/
def aElem (href label : String) : Node :=
  .elem "a" [("href", href)] (.cons (.text label) .nil)

/-- A document whose whole markup is one `<body>` with the given children. -/
def bodyDoc (ns : List Node) : NodeList :=
  NodeList.ofList [.elem "body" [] (NodeList.ofList ns)]

/-- A two-page site whose root links to a dead URL `http://h/f` and to
`http://h/a`, which links to the dead URL again. -/
def demoSiteFail : Site :=
  [("http://h/", bodyDoc [aElem "f" "F", aElem "a" "A"]),
   ("http://h/a", bodyDoc [aElem "f" "F"])]

/-- A three-page site with a page nested under `/docs/` carrying the relative
link `sub`, which the crawler resolves against the *start* URL. -/
def demoSiteNested : Site :=
  [("http://h/", bodyDoc [aElem "docs/" "Docs"]),
   ("http://h/docs/", bodyDoc [aElem "sub" "Sub"]),
   ("http://h/sub", bodyDoc [.text "Leaf"])]

example : get_links demoSiteFail "http://h/" "http://h/" = ["http://h/f", "http://h/a"] := rfl

example : (scrape_website demoSiteFail "" "http://h/" 10 2).fetchLog =
    ["http://h/", "http://h/", "http://h/f", "http://h/a", "http://h/a", "http://h/f"] := rfl

example : (scrape_website demoSiteNested "" "http://h/" 10 2).results.map (·.url) =
    ["http://h/", "http://h/docs/", "http://h/sub"] := rfl

/-! ## Lemmas about the string helpers -/

theorem dropTrailing_mem {p : Char → Bool} {l : List Char} {x : Char}
    (h : x ∈ dropTrailing p l) : x ∈ l := by
  induction l with
  | nil => simp [dropTrailing] at h
  | cons c cs ih =>
    simp only [dropTrailing] at h
    cases hrec : dropTrailing p cs with
    | nil =>
      rw [hrec] at h
      by_cases hp : p c
      · simp [hp] at h
      · simp [hp] at h
        simp [h]
    | cons a r =>
      rw [hrec] at h
      rcases List.mem_cons.mp h with h | h
      · simp [h]
      · have hx : x ∈ dropTrailing p cs := by rw [hrec]; exact h
        exact List.mem_cons_of_mem _ (ih hx)

theorem dropTrailing_idem (p : Char → Bool) (l : List Char) :
    dropTrailing p (dropTrailing p l) = dropTrailing p l := by
  induction l with
  | nil => rfl
  | cons c cs ih =>
    cases hrec : dropTrailing p cs with
    | nil =>
      by_cases hp : p c
      · simp [dropTrailing, hrec, hp]
      · simp [dropTrailing, hrec, hp]
    | cons a r =>
      rw [hrec] at ih
      have hcons : ∀ (d : Char) (l : List Char), dropTrailing p (d :: l) =
          (match dropTrailing p l with
           | [] => if p d then [] else [d]
           | r' => d :: r') := fun _ _ => rfl
      have h1 : dropTrailing p (c :: cs) = c :: a :: r := by
        rw [hcons, hrec]
      rw [h1, hcons, ih]

theorem dropTrailing_headOpt (p : Char → Bool) (l : List Char) :
    dropTrailing p l = [] ∨ (dropTrailing p l).head? = l.head? := by
  cases l with
  | nil => exact Or.inl rfl
  | cons c cs =>
    simp only [dropTrailing]
    cases hrec : dropTrailing p cs with
    | nil =>
      by_cases hp : p c
      · simp [hp]
      · simp [hp]
    | cons a r => simp

theorem dropWhile_head_false {p : Char → Bool} {l : List Char} {a : Char}
    (h : (l.dropWhile p).head? = some a) : p a = false := by
  induction l with
  | nil => simp [List.dropWhile] at h
  | cons c cs ih =>
    by_cases hp : p c
    · rw [List.dropWhile_cons_of_pos hp] at h; exact ih h
    · rw [List.dropWhile_cons_of_neg hp] at h
      simp at h
      subst h
      simpa using hp

theorem dropWhile_of_head_false {p : Char → Bool} {l : List Char}
    (h : ∀ a, l.head? = some a → p a = false) : l.dropWhile p = l := by
  cases l with
  | nil => rfl
  | cons c cs =>
    have hc : p c = false := h c rfl
    simp [List.dropWhile_cons, hc]

theorem pyStrip_idem (s : String) : pyStrip (pyStrip s) = pyStrip s := by
  unfold pyStrip
  have hdata : (⟨dropTrailing isPySpace (s.data.dropWhile isPySpace)⟩ : String).data
      = dropTrailing isPySpace (s.data.dropWhile isPySpace) := rfl
  rw [hdata]
  have hdw : (dropTrailing isPySpace (s.data.dropWhile isPySpace)).dropWhile isPySpace
      = dropTrailing isPySpace (s.data.dropWhile isPySpace) := by
    apply dropWhile_of_head_false
    intro a ha
    rcases dropTrailing_headOpt isPySpace (s.data.dropWhile isPySpace) with h0 | h0
    · rw [h0] at ha; simp at ha
    · rw [h0] at ha; exact dropWhile_head_false ha
  rw [hdw, dropTrailing_idem]

theorem pyStrip_mem {s : String} {c : Char} (h : c ∈ (pyStrip s).data) : c ∈ s.data := by
  unfold pyStrip at h
  have h' : c ∈ s.data.dropWhile isPySpace := dropTrailing_mem h
  exact (List.dropWhile_sublist isPySpace (l := s.data)).mem h'

theorem splitOnChar_ne_nil (c : Char) (l : List Char) : splitOnChar c l ≠ [] := by
  cases l with
  | nil => simp [splitOnChar]
  | cons x xs =>
    simp only [splitOnChar]
    by_cases h : x = c
    · simp [h]
    · simp only [h, if_neg h]
      cases splitOnChar c xs <;> simp

theorem splitOnChar_mem_no_char (c : Char) (l : List Char) :
    ∀ part ∈ splitOnChar c l, c ∉ part := by
  induction l with
  | nil => intro part h; simp [splitOnChar] at h; simp [h]
  | cons x xs ih =>
    intro part h
    simp only [splitOnChar] at h
    by_cases hx : x = c
    · simp only [if_pos hx] at h
      rcases List.mem_cons.mp h with h | h
      · simp [h]
      · exact ih part h
    · simp only [if_neg hx] at h
      cases hrec : splitOnChar c xs with
      | nil => exact absurd hrec (splitOnChar_ne_nil c xs)
      | cons p ps =>
        rw [hrec] at h
        rcases List.mem_cons.mp h with h | h
        · subst h
          intro hmem
          rcases List.mem_cons.mp hmem with h | h
          · exact hx h.symm
          · exact ih p (hrec ▸ List.mem_cons_self p ps) h
        · exact ih part (hrec ▸ List.mem_cons_of_mem p h)

theorem splitOnChar_single {c : Char} {a : List Char} (h : c ∉ a) :
    splitOnChar c a = [a] := by
  induction a with
  | nil => rfl
  | cons x xs ih =>
    simp only [splitOnChar]
    have hx : ¬ x = c := fun hh => h (hh ▸ List.mem_cons_self x xs)
    rw [if_neg hx, ih (fun hh => h (List.mem_cons_of_mem x hh))]

theorem splitOnChar_append {c : Char} {a : List Char} (b : List Char) (h : c ∉ a) :
    splitOnChar c (a ++ c :: b) = a :: splitOnChar c b := by
  induction a with
  | nil => simp [splitOnChar]
  | cons x xs ih =>
    have hx : ¬ x = c := fun hh => h (hh ▸ List.mem_cons_self x xs)
    have h' := ih (fun hh => h (List.mem_cons_of_mem x hh))
    show splitOnChar c (x :: (xs ++ c :: b)) = (x :: xs) :: splitOnChar c b
    simp only [splitOnChar, if_neg hx]
    rw [h']

theorem newline_data : ("\n" : String).data = ['\n'] := rfl

theorem data_ne_nil_of_ne_empty {p : String} (hp : p ≠ "") : p.data ≠ [] := by
  intro h
  apply hp
  cases p
  simp at h
  simp [h]

theorem joinNL_data_ne_nil {p : String} (rest : List String) (hp : p ≠ "") :
    (joinNL (p :: rest)).data ≠ [] := by
  have hd : p.data ≠ [] := data_ne_nil_of_ne_empty hp
  cases rest with
  | nil => simpa [joinNL] using hd
  | cons q qs =>
    simp only [joinNL, String.data_append, newline_data]
    intro h
    rcases List.append_eq_nil.mp h with ⟨h1, _⟩
    rcases List.append_eq_nil.mp h1 with ⟨h2, _⟩
    exact hd h2

theorem mem_of_getLast?_eq {l : List Char} {a : Char} (h : l.getLast? = some a) : a ∈ l := by
  rcases List.mem_getLast?_eq_getLast (x := a) (l := l) (by simp [h]) with ⟨hne, heq⟩
  rw [heq]
  exact List.getLast_mem hne

theorem joinNL_getLast_ne (pieces : List String)
    (h : ∀ p ∈ pieces, p ≠ "" ∧ '\n' ∉ p.data) :
    (joinNL pieces).data.getLast? ≠ some '\n' := by
  induction pieces with
  | nil => simp [joinNL]
  | cons s rest ih =>
    cases rest with
    | nil =>
      simp only [joinNL]
      intro hc
      exact (h s (by simp)).2 (mem_of_getLast?_eq hc)
    | cons q qs =>
      simp only [joinNL, String.data_append, newline_data]
      have hJ : (joinNL (q :: qs)).data ≠ [] :=
        joinNL_data_ne_nil qs (h q (by simp)).1
      rw [List.append_assoc, List.getLast?_append_of_ne_nil _ (by simp [hJ]),
        List.getLast?_append_of_ne_nil _ hJ]
      exact ih (fun p hp => h p (List.mem_cons_of_mem _ hp))

theorem pySplitlines_joinNL (pieces : List String)
    (h : ∀ p ∈ pieces, p ≠ "" ∧ '\n' ∉ p.data) :
    pySplitlines (joinNL pieces) = pieces := by
  induction pieces with
  | nil => rfl
  | cons s rest ih =>
    have hs := h s (by simp)
    cases rest with
    | nil =>
      simp only [joinNL]
      unfold pySplitlines
      rw [if_neg (by simpa [List.isEmpty_iff] using data_ne_nil_of_ne_empty hs.1)]
      rw [if_neg (by
        intro hc
        exact hs.2 (mem_of_getLast?_eq hc))]
      rw [splitOnChar_single hs.2]
      simp
    | cons q qs =>
      have hrest := ih (fun p hp => h p (List.mem_cons_of_mem _ hp))
      have hq := h q (by simp)
      have hJ : (joinNL (q :: qs)).data ≠ [] := joinNL_data_ne_nil qs hq.1
      have hlastJ := joinNL_getLast_ne (q :: qs)
        (fun p hp => h p (List.mem_cons_of_mem _ hp))
      have hdata : (joinNL (s :: q :: qs)).data
          = s.data ++ '\n' :: (joinNL (q :: qs)).data := by
        simp [joinNL, String.data_append, newline_data]
      unfold pySplitlines
      rw [if_neg (by simp [hdata, List.isEmpty_iff])]
      rw [if_neg (by
        rw [hdata, List.getLast?_append_of_ne_nil _ (by simp),
          show ('\n' :: (joinNL (q :: qs)).data) = ['\n'] ++ (joinNL (q :: qs)).data from rfl,
          List.getLast?_append_of_ne_nil _ hJ]
        exact hlastJ)]
      rw [hdata, splitOnChar_append _ hs.2]
      unfold pySplitlines at hrest
      rw [if_neg (by simpa [List.isEmpty_iff] using hJ), if_neg hlastJ] at hrest
      simp only [List.map_cons]
      rw [show (⟨s.data⟩ : String) = s from rfl, hrest]

theorem pySplitlines_no_newline (s : String) :
    ∀ l ∈ pySplitlines s, '\n' ∉ l.data := by
  intro l hl
  unfold pySplitlines at hl
  by_cases he : s.data.isEmpty
  · simp [he] at hl
  · rw [if_neg he] at hl
    have hall : ∀ l' ∈ (splitOnChar '\n' s.data).map (fun cs => (⟨cs⟩ : String)),
        '\n' ∉ l'.data := by
      intro l' hl'
      rcases List.mem_map.mp hl' with ⟨cs, hcs, rfl⟩
      exact splitOnChar_mem_no_char '\n' s.data cs hcs
    split at hl
    · exact hall l ((List.dropLast_sublist _).subset hl)
    · exact hall l hl

theorem cleanText_pieces (t : String) :
    ∀ p ∈ ((pySplitlines t).map pyStrip).filter (fun l => l != ""),
      p ≠ "" ∧ '\n' ∉ p.data := by
  intro p hp
  have hne : p ≠ "" := by simpa [bne_iff_ne] using List.of_mem_filter hp
  refine ⟨hne, ?_⟩
  have hm := List.mem_of_mem_filter hp
  rcases List.mem_map.mp hm with ⟨l0, hl0, rfl⟩
  intro hc
  exact pySplitlines_no_newline t l0 hl0 (pyStrip_mem hc)

theorem cleanText_splitlines (t : String) :
    pySplitlines (cleanText t) = ((pySplitlines t).map pyStrip).filter (fun l => l != "") := by
  unfold cleanText
  exact pySplitlines_joinNL _ (cleanText_pieces t)

theorem cleanText_lines (t : String) :
    ∀ l ∈ pySplitlines (cleanText t), pyStrip l = l ∧ l ≠ "" := by
  intro l hl
  rw [cleanText_splitlines] at hl
  have hne : l ≠ "" := by simpa [bne_iff_ne] using List.of_mem_filter hl
  have hm := List.mem_of_mem_filter hl
  rcases List.mem_map.mp hm with ⟨l0, _, rfl⟩
  exact ⟨pyStrip_idem l0, hne⟩

/-! ## Lemmas about the document traversals -/

mutual
/-- The search `findTagN` is first-match search over the preorder node list. -/
theorem findTagN_eq_find (t : String) (n : Node) :
    findTagN t n = (nodesN n).find? (isTag t) := by
  cases n with
  | text s => simp [findTagN, nodesN, isTag]
  | elem tg a cs =>
    by_cases h : tg = t
    · simp [findTagN, nodesN, isTag, h]
    · simp [findTagN, nodesN, isTag, h, findTagL_eq_find t cs]
/-- The search `findTagL` is first-match search over the preorder node list. -/
theorem findTagL_eq_find (t : String) (l : NodeList) :
    findTagL t l = (nodesL l).find? (isTag t) := by
  cases l with
  | nil => simp [findTagL, nodesL]
  | cons n rest =>
    rw [findTagL, findTagN_eq_find t n, findTagL_eq_find t rest]
    rw [nodesL, List.find?_append]
    cases (nodesN n).find? (isTag t) <;> simp
end

/-- After `decomposeL`, no element of the document carries a noise tag
(`soup([...]).decompose()` removes the matched elements and their subtrees). -/
theorem decomposeL_no_noise (noise : List String) (l : NodeList) :
    ∀ t ∈ tagsL (decomposeL noise l), t ∈ noise → False := by
  cases l with
  | nil => simp [decomposeL, tagsL]
  | cons n rest =>
    cases n with
    | text s =>
      intro t ht hmem
      simp only [decomposeL, tagsL, tagsN] at ht
      exact decomposeL_no_noise noise rest t (by simpa using ht) hmem
    | elem tg a cs =>
      intro t ht hmem
      by_cases hkeep : tg ∈ noise
      · rw [decomposeL] at ht
        simp only [if_pos hkeep] at ht
        exact decomposeL_no_noise noise rest t ht hmem
      · rw [decomposeL] at ht
        simp only [if_neg hkeep, tagsL, tagsN] at ht
        rcases List.mem_append.mp ht with h | h
        · rcases List.mem_cons.mp h with h | h
          · exact hkeep (h ▸ hmem)
          · exact decomposeL_no_noise noise cs t h hmem
        · exact decomposeL_no_noise noise rest t h hmem

/-! ## Lemmas about `get_links` -/

theorem mem_setAdd {l : List String} {u v : String} :
    u ∈ setAdd l v ↔ u ∈ l ∨ u = v := by
  unfold setAdd
  by_cases h : v ∈ l
  · simp only [if_pos h]
    constructor
    · exact fun hu => Or.inl hu
    · rintro (hu | rfl)
      · exact hu
      · exact h
  · simp [if_neg h]

theorem mem_linkFold_foldl (base : String) (hs : List String) (acc : List String) (u : String) :
    u ∈ hs.foldl (linkFold base) acc ↔
      u ∈ acc ∨ ∃ href ∈ hs,
        (urlparse (urljoin base href)).netloc = (urlparse base).netloc ∧
        u = stripFragment (urljoin base href) := by
  induction hs generalizing acc with
  | nil => simp
  | cons h hs ih =>
    rw [List.foldl_cons, ih]
    unfold linkFold
    by_cases hc : (urlparse (urljoin base h)).netloc = (urlparse base).netloc
    · rw [if_pos hc]
      constructor
      · rintro (hacc | hex)
        · rcases mem_setAdd.mp hacc with hacc | rfl
          · exact Or.inl hacc
          · exact Or.inr ⟨h, by simp, hc, rfl⟩
        · rcases hex with ⟨href, hh, hnl, he⟩
          exact Or.inr ⟨href, List.mem_cons_of_mem _ hh, hnl, he⟩
      · rintro (hacc | ⟨href, hh, hnl, he⟩)
        · exact Or.inl (mem_setAdd.mpr (Or.inl hacc))
        · rcases List.mem_cons.mp hh with rfl | hh
          · exact Or.inl (mem_setAdd.mpr (Or.inr he))
          · exact Or.inr ⟨href, hh, hnl, he⟩
    · rw [if_neg hc]
      constructor
      · rintro (hacc | ⟨href, hh, hnl, he⟩)
        · exact Or.inl hacc
        · exact Or.inr ⟨href, List.mem_cons_of_mem _ hh, hnl, he⟩
      · rintro (hacc | ⟨href, hh, hnl, he⟩)
        · exact Or.inl hacc
        · rcases List.mem_cons.mp hh with rfl | hh
          · exact absurd hnl hc
          · exact Or.inr ⟨href, hh, hnl, he⟩

/-! ## Reachability through the crawler's own link relation -/

/-- Reachability `ReachWithin site start d u`: the URL `u` can be reached from `start` in at
most `d` steps along the edge relation "`v` links to `u`", where the links of a
page are exactly those produced by `get_links` with the crawl's start URL as
resolution base — i.e. the shortest link-distance of `u` from `start` is at
most `d`. -/
inductive ReachWithin (site : Site) (start : String) : Nat → String → Prop
  | base (d : Nat) : ReachWithin site start d start
  | step {d : Nat} {u v : String} : ReachWithin site start d u →
      v ∈ get_links site u start → ReachWithin site start (d + 1) v

theorem ReachWithin.mono {site : Site} {start : String} {d e : Nat} {u : String}
    (h : ReachWithin site start d u) (hde : d ≤ e) : ReachWithin site start e u := by
  induction h generalizing e with
  | base _ => exact ReachWithin.base e
  | @step d' u' v' hu hv ih =>
    cases e with
    | zero => exact absurd hde (by omega)
    | succ e' => exact ReachWithin.step (ih (by omega)) hv

/-! ## First occurrences of frontier entries (discovery order) -/

/-- Keep only the first entry for each URL, preserving order: the discovery
order of the URLs in a push history. -/
def firstOccsAux (seen : List String) : List (String × Nat) → List (String × Nat)
  | [] => []
  | p :: rest =>
    if p.1 ∈ seen then firstOccsAux seen rest
    else p :: firstOccsAux (p.1 :: seen) rest

/-- First occurrence of each URL in a push history, in discovery order. -/
def firstOccs (l : List (String × Nat)) : List (String × Nat) := firstOccsAux [] l

theorem firstOccsAux_congr {seen seen' : List String}
    (h : ∀ x, x ∈ seen ↔ x ∈ seen') (l : List (String × Nat)) :
    firstOccsAux seen l = firstOccsAux seen' l := by
  induction l generalizing seen seen' with
  | nil => rfl
  | cons p rest ih =>
    by_cases hp : p.1 ∈ seen
    · rw [firstOccsAux, if_pos hp, firstOccsAux, if_pos ((h p.1).mp hp)]
      exact ih h
    · rw [firstOccsAux, if_neg hp, firstOccsAux, if_neg (fun hh => hp ((h p.1).mpr hh))]
      congr 1
      exact ih (fun x => by simp [List.mem_cons, h x])

theorem firstOccsAux_sublist (seen : List String) (l : List (String × Nat)) :
    (firstOccsAux seen l).Sublist l := by
  induction l generalizing seen with
  | nil => simp [firstOccsAux]
  | cons p rest ih =>
    by_cases hp : p.1 ∈ seen
    · rw [firstOccsAux, if_pos hp]
      exact (ih seen).trans (List.sublist_cons_self p rest)
    · rw [firstOccsAux, if_neg hp]
      exact (ih _).cons₂ p

theorem firstOccsAux_append (seen : List String) (a b : List (String × Nat)) :
    firstOccsAux seen (a ++ b)
      = firstOccsAux seen a ++ firstOccsAux (a.map Prod.fst ++ seen) b := by
  induction a generalizing seen with
  | nil => simp [firstOccsAux]
  | cons p a' ih =>
    by_cases hp : p.1 ∈ seen
    · rw [List.cons_append, firstOccsAux, if_pos hp, firstOccsAux, if_pos hp, ih seen]
      congr 1
      refine firstOccsAux_congr (fun x => ?_) b
      simp only [List.map_cons, List.cons_append, List.mem_cons, List.mem_append]
      constructor
      · rintro (h | h) <;> simp [h]
      · rintro (h | h | h)
        · subst h; simp [hp]
        · simp [h]
        · simp [h]
    · rw [List.cons_append, firstOccsAux, if_neg hp, firstOccsAux, if_neg hp, ih (p.1 :: seen)]
      rw [List.cons_append]
      congr 2
      refine firstOccsAux_congr (fun x => ?_) b
      simp only [List.map_cons, List.cons_append, List.mem_cons, List.mem_append]
      constructor
      · rintro (h | h | h) <;> simp [h]
      · rintro (h | h | h) <;> simp [h]

theorem firstOccs_snoc_not_mem {l : List (String × Nat)} {u : String × Nat}
    (h : u.1 ∉ l.map Prod.fst) : firstOccs (l ++ [u]) = firstOccs l ++ [u] := by
  unfold firstOccs
  rw [firstOccsAux_append]
  congr 1
  rw [firstOccsAux, if_neg (by simpa using h)]
  rfl

theorem firstOccs_snoc_cases (l : List (String × Nat)) (u : String × Nat) :
    firstOccs (l ++ [u]) = firstOccs l ∨ firstOccs (l ++ [u]) = firstOccs l ++ [u] := by
  unfold firstOccs
  rw [firstOccsAux_append]
  by_cases h : u.1 ∈ l.map Prod.fst ++ []
  · left
    rw [firstOccsAux, if_pos h]
    simp [firstOccsAux]
  · right
    rw [firstOccsAux, if_neg h]
    rfl

theorem firstOccs_append_sublist (a b : List (String × Nat)) :
    (firstOccs a).Sublist (firstOccs (a ++ b)) := by
  unfold firstOccs
  rw [firstOccsAux_append]
  exact List.sublist_append_left _ _

theorem firstOccs_sublist (l : List (String × Nat)) : (firstOccs l).Sublist l :=
  firstOccsAux_sublist [] l

/-! ## The crawl-loop invariant -/

theorem scrape_webpage_none_iff {site : Site} {ts url : String} :
    scrape_webpage site ts url = none ↔ fetchSite site url = none := by
  unfold scrape_webpage
  cases fetchSite site url <;> simp

theorem scrape_webpage_url {site : Site} {ts url : String} {r : CrawlRecord}
    (h : scrape_webpage site ts url = some r) : r.url = url := by
  unfold scrape_webpage at h
  cases hf : fetchSite site url with
  | none => rw [hf] at h; simp at h
  | some doc =>
    rw [hf] at h
    simp only [Option.some.injEq] at h
    rw [← h]

theorem pairwise_le_of_all_eq {l : List Nat} {v : Nat} (h : ∀ x ∈ l, x = v) :
    List.Pairwise (fun a b => a ≤ b) l := by
  induction l with
  | nil => simp
  | cons x xs ih =>
    rw [List.pairwise_cons]
    refine ⟨fun y hy => ?_, ih (fun y hy => h y (List.mem_cons_of_mem _ hy))⟩
    rw [h x (by simp), h y (List.mem_cons_of_mem _ hy)]

theorem pairwise_le_middle {l r : List (String × Nat)} {x : String × Nat}
    (h : List.Pairwise (fun a b => a ≤ b) ((l ++ x :: r).map Prod.snd)) :
    (∀ p ∈ l, p.2 ≤ x.2) ∧ (∀ q ∈ r, x.2 ≤ q.2) := by
  rw [List.map_append, List.map_cons, List.pairwise_append] at h
  obtain ⟨h1, h2, h3⟩ := h
  rw [List.pairwise_cons] at h2
  exact ⟨fun p hp => h3 p.2 (List.mem_map_of_mem _ hp) x.2 (by simp),
         fun q hq => h2.1 q.2 (List.mem_map_of_mem _ hq)⟩

/-- The inductive invariant of `scrape_website`'s loop.  `popLog ++ toVisit`
reconstructs `pushLog` (the queue is FIFO), `visited` is exactly the URLs of
the successful scrapes, results correspond to `visited` one-to-one in order,
every popped entry is either now visited or points outside the site, depths
along `pushLog` are non-decreasing and spread over at most two levels inside
the queue, the success history is an order-preserving selection of the first
occurrences of the pop history, and every entry ever pushed respects the depth
bound and is reachable within its depth. -/
structure CrawlInv (site : Site) (ts start_url : String) (maxDepth : Nat)
    (s : CrawlState) : Prop where
  push_split : s.pushLog = s.popLog ++ s.toVisit
  visited_eq : s.visited = s.successLog.map Prod.fst
  results_eq : s.results.map CrawlRecord.url = s.visited
  visited_nodup : s.visited.Nodup
  pop_closed : ∀ p ∈ s.popLog, p.1 ∈ s.visited ∨ fetchSite site p.1 = none
  depth_sorted : List.Pairwise (fun a b => a ≤ b) (s.pushLog.map Prod.snd)
  depth_spread : ∀ a ∈ s.toVisit, ∀ b ∈ s.toVisit, a.2 ≤ b.2 + 1
  success_first : s.successLog.Sublist (firstOccs s.popLog)
  push_depth : ∀ p ∈ s.pushLog, p.2 ≤ maxDepth ∧ ReachWithin site start_url p.2 p.1
  visited_ok : ∀ u ∈ s.visited, fetchSite site u ≠ none
  results_scrape : ∀ r ∈ s.results, scrape_webpage site ts r.url = some r

theorem crawlInv_init (site : Site) (ts start_url : String) (maxDepth : Nat) :
    CrawlInv site ts start_url maxDepth (initState start_url) := by
  refine ⟨rfl, rfl, rfl, List.nodup_nil, by simp [initState], ?_, ?_, by simp [initState, firstOccs, firstOccsAux], ?_, by simp [initState], by simp [initState]⟩
  · simp [initState]
  · intro a ha b hb
    simp only [initState] at ha hb
    rw [List.mem_singleton] at ha hb
    subst ha; subst hb
    simp
  · intro p hp
    simp only [initState] at hp
    rw [List.mem_singleton] at hp
    subst hp
    exact ⟨Nat.zero_le _, ReachWithin.base 0⟩

theorem crawlStep_inv {site : Site} {ts start_url : String} {maxDepth : Nat}
    {s : CrawlState} (inv : CrawlInv site ts start_url maxDepth s) :
    CrawlInv site ts start_url maxDepth (crawlStep site ts start_url maxDepth s) := by
  obtain ⟨visited, toVisit, results, fetchLog, popLog, pushLog, successLog⟩ := s
  obtain ⟨I1, I2, I3, I4, I5, I6, I7, I8, I9, I10, I11⟩ := inv
  simp only at I1 I2 I3 I4 I5 I6 I7 I8 I9 I10 I11
  cases toVisit with
  | nil => exact ⟨I1, I2, I3, I4, I5, I6, I7, I8, I9, I10, I11⟩
  | cons hd rest =>
    obtain ⟨url, depth⟩ := hd
    have hd_mem_push : (url, depth) ∈ pushLog := by
      rw [I1]; exact List.mem_append_right _ (List.mem_cons_self _ _)
    have hdepth_le : depth ≤ maxDepth := (I9 _ hd_mem_push).1
    have hreach : ReachWithin site start_url depth url := (I9 _ hd_mem_push).2
    have hsplit' : pushLog = (popLog ++ [(url, depth)]) ++ rest := by
      rw [I1, List.append_assoc]; rfl
    have hspread' : ∀ a ∈ rest, ∀ b ∈ rest, a.2 ≤ b.2 + 1 := fun a ha b hb =>
      I7 a (List.mem_cons_of_mem _ ha) b (List.mem_cons_of_mem _ hb)
    have hsuccess_snoc : successLog.Sublist (firstOccs (popLog ++ [(url, depth)])) := by
      rcases firstOccs_snoc_cases popLog (url, depth) with h | h
      · rw [h]; exact I8
      · rw [h]; exact I8.trans (List.sublist_append_left _ _)
    simp only [crawlStep]
    by_cases hskip : url ∈ visited ∨ maxDepth < depth
    · rw [if_pos hskip]
      have hvis : url ∈ visited := by
        rcases hskip with h | h
        · exact h
        · exact absurd hdepth_le (by omega)
      refine ⟨hsplit', I2, I3, I4, ?_, I6, hspread', hsuccess_snoc, I9, I10, I11⟩
      intro p hp
      rcases List.mem_append.mp hp with hp | hp
      · exact I5 p hp
      · rw [List.mem_singleton] at hp
        subst hp
        exact Or.inl hvis
    · rw [if_neg hskip]
      have hnv : url ∉ visited := fun h => hskip (Or.inl h)
      cases hscrape : scrape_webpage site ts url with
      | none =>
        have hfail : fetchSite site url = none := scrape_webpage_none_iff.mp hscrape
        refine ⟨hsplit', I2, I3, I4, ?_, I6, hspread', hsuccess_snoc, I9, I10, I11⟩
        intro p hp
        rcases List.mem_append.mp hp with hp | hp
        · exact I5 p hp
        · rw [List.mem_singleton] at hp
          subst hp
          exact Or.inr hfail
      | some r =>
        dsimp only
        have hurl : r.url = url := scrape_webpage_url hscrape
        have hfetch : fetchSite site url ≠ none := fun hf =>
          by rw [scrape_webpage_none_iff.mpr hf] at hscrape; exact Option.noConfusion hscrape
        have hnotpop : url ∉ popLog.map Prod.fst := by
          intro hmem
          rcases List.mem_map.mp hmem with ⟨p, hp, hp1⟩
          rcases I5 p hp with h | h
          · exact hnv (hp1 ▸ h)
          · exact hfetch (hp1 ▸ h)
        have hvis_eq : visited ++ [url] = (successLog ++ [(url, depth)]).map Prod.fst := by
          rw [List.map_append, ← I2]; rfl
        have hres_eq : (results ++ [r]).map CrawlRecord.url = visited ++ [url] := by
          rw [List.map_append, I3]
          simp [hurl]
        have hnodup : (visited ++ [url]).Nodup := by
          simp [List.nodup_append, I4, hnv]
        have hpop_closed : ∀ p ∈ popLog ++ [(url, depth)],
            p.1 ∈ visited ++ [url] ∨ fetchSite site p.1 = none := by
          intro p hp
          rcases List.mem_append.mp hp with hp | hp
          · rcases I5 p hp with h | h
            · exact Or.inl (List.mem_append_left _ h)
            · exact Or.inr h
          · rw [List.mem_singleton] at hp
            subst hp
            exact Or.inl (by simp)
        have hsuccess' : (successLog ++ [(url, depth)]).Sublist
            (firstOccs (popLog ++ [(url, depth)])) := by
          rw [firstOccs_snoc_not_mem hnotpop]
          exact I8.append (List.Sublist.refl _)
        have hvisited_ok : ∀ u ∈ visited ++ [url], fetchSite site u ≠ none := by
          intro u hu
          rcases List.mem_append.mp hu with hu | hu
          · exact I10 u hu
          · rw [List.mem_singleton] at hu
            subst hu
            exact hfetch
        have hresults_scrape : ∀ r' ∈ results ++ [r],
            scrape_webpage site ts r'.url = some r' := by
          intro r' hr'
          rcases List.mem_append.mp hr' with hr' | hr'
          · exact I11 r' hr'
          · rw [List.mem_singleton] at hr'
            subst hr'
            rw [hurl]
            exact hscrape
        by_cases hexp : depth < maxDepth
        · rw [if_pos hexp]
          have hentry : ∀ e ∈ ((get_links site url start_url).filter
              (fun l => decide (l ∉ visited ++ [url]))).map (fun l => (l, depth + 1)),
              e.2 = depth + 1 ∧ e.1 ∈ get_links site url start_url := by
            intro e he
            rcases List.mem_map.mp he with ⟨l, hl, rfl⟩
            exact ⟨rfl, List.mem_of_mem_filter hl⟩
          have hrest_ge : ∀ b ∈ rest, depth ≤ b.2 := by
            have := pairwise_le_middle (x := (url, depth)) (I1 ▸ I6)
            exact this.2
          have hpush_le : ∀ p ∈ pushLog, p.2 ≤ depth + 1 := by
            intro p hp
            rw [I1] at hp
            rcases List.mem_append.mp hp with hp | hp
            · have := (pairwise_le_middle (x := (url, depth)) (I1 ▸ I6)).1 p hp
              omega
            · rcases List.mem_cons.mp hp with hp | hp
              · subst hp; omega
              · have := I7 p (List.mem_cons_of_mem _ hp) (url, depth) (List.mem_cons_self _ _)
                omega
          refine ⟨?_, hvis_eq, hres_eq, hnodup, hpop_closed, ?_, ?_, hsuccess', ?_, hvisited_ok, hresults_scrape⟩
          · rw [hsplit', List.append_assoc, List.append_assoc, List.append_assoc]
          · rw [List.map_append, List.pairwise_append]
            refine ⟨I6, ?_, ?_⟩
            · apply pairwise_le_of_all_eq (v := depth + 1)
              intro x hx
              rcases List.mem_map.mp hx with ⟨e, he, rfl⟩
              exact (hentry e he).1
            · intro a ha b hb
              rcases List.mem_map.mp ha with ⟨p, hp, rfl⟩
              rcases List.mem_map.mp hb with ⟨e, he, rfl⟩
              rw [(hentry e he).1]
              exact hpush_le p hp
          · intro a ha b hb
            rcases List.mem_append.mp ha with ha | ha <;>
              rcases List.mem_append.mp hb with hb | hb
            · exact hspread' a ha b hb
            · have h1 : a.2 ≤ depth + 1 :=
                I7 a (List.mem_cons_of_mem _ ha) (url, depth) (List.mem_cons_self _ _)
              have h2 := (hentry b hb).1
              omega
            · have h1 := (hentry a ha).1
              have h2 := hrest_ge b hb
              omega
            · have h1 := (hentry a ha).1
              have h2 := (hentry b hb).1
              omega
          · intro p hp
            rcases List.mem_append.mp hp with hp | hp
            · exact I9 p hp
            · obtain ⟨h1, h2⟩ := hentry p hp
              refine ⟨by omega, ?_⟩
              have : ReachWithin site start_url (depth + 1) p.1 :=
                ReachWithin.step hreach h2
              rw [h1]
              exact this
        · rw [if_neg hexp]
          exact ⟨hsplit', hvis_eq, hres_eq, hnodup, hpop_closed, I6, hspread', hsuccess', I9, hvisited_ok, hresults_scrape⟩

theorem crawlLoop_inv {site : Site} {ts start_url : String} {maxPages maxDepth : Nat}
    (fuel : Nat) {s : CrawlState} (inv : CrawlInv site ts start_url maxDepth s) :
    CrawlInv site ts start_url maxDepth
      (crawlLoop site ts start_url maxPages maxDepth fuel s) := by
  induction fuel generalizing s with
  | zero => exact inv
  | succ n ih =>
    rw [crawlLoop]
    split
    · exact inv
    · exact ih (crawlStep_inv inv)

theorem crawlStep_visited_le (site : Site) (ts start_url : String) (maxDepth : Nat)
    (s : CrawlState) :
    (crawlStep site ts start_url maxDepth s).visited.length ≤ s.visited.length + 1 := by
  obtain ⟨visited, toVisit, results, fetchLog, popLog, pushLog, successLog⟩ := s
  cases toVisit with
  | nil => simp [crawlStep]
  | cons hd rest =>
    obtain ⟨url, depth⟩ := hd
    simp only [crawlStep]
    by_cases hskip : url ∈ visited ∨ maxDepth < depth
    · rw [if_pos hskip]; simp
    · rw [if_neg hskip]
      cases scrape_webpage site ts url with
      | none => simp
      | some r =>
        dsimp only
        by_cases hexp : depth < maxDepth
        · rw [if_pos hexp]; simp
        · rw [if_neg hexp]; simp

theorem crawlLoop_stops {site : Site} {ts start_url : String} {maxPages maxDepth : Nat}
    (fuel : Nat) (s : CrawlState) (h : maxPages ≤ s.visited.length) :
    crawlLoop site ts start_url maxPages maxDepth fuel s = s := by
  cases fuel with
  | zero => rfl
  | succ n => rw [crawlLoop, if_pos (Or.inr h)]

theorem crawlLoop_visited_le {site : Site} {ts start_url : String}
    {maxPages maxDepth : Nat} (fuel : Nat) (s : CrawlState)
    (h : s.visited.length ≤ maxPages) :
    (crawlLoop site ts start_url maxPages maxDepth fuel s).visited.length ≤ maxPages := by
  induction fuel generalizing s with
  | zero => exact h
  | succ n ih =>
    rw [crawlLoop]
    split
    · exact h
    · next hcond =>
      apply ih
      have hlt : s.visited.length < maxPages := by
        rcases Nat.lt_or_ge s.visited.length maxPages with h' | h'
        · exact h'
        · exact absurd (Or.inr h') hcond
      have := crawlStep_visited_le site ts start_url maxDepth s
      omega

theorem crawlStep_fetch_failure {site : Site} {ts start_url : String} {maxDepth : Nat}
    {s : CrawlState} {url : String} {depth : Nat} {rest : List (String × Nat)}
    (htv : s.toVisit = (url, depth) :: rest) (hnv : url ∉ s.visited)
    (hd : depth ≤ maxDepth) (hf : fetchSite site url = none) :
    crawlStep site ts start_url maxDepth s =
      { s with toVisit := rest, popLog := s.popLog ++ [(url, depth)],
               fetchLog := s.fetchLog ++ [url] } := by
  obtain ⟨visited, toVisit, results, fetchLog, popLog, pushLog, successLog⟩ := s
  simp only at htv hnv
  subst htv
  simp only [crawlStep]
  rw [if_neg (by
    rintro (h | h)
    · exact hnv h
    · omega)]
  rw [show scrape_webpage site ts url = none from scrape_webpage_none_iff.mpr hf]

/-! ## Claim theorems -/

/-- C2: for every crawl invocation with `max_pages ≥ 1`, the result sequence
never exceeds `max_pages` records, and the loop stops as soon as the count of
successfully fetched pages (`len(visited)`) reaches `max_pages`, returning the
state unchanged — the remaining frontier entries are discarded and no further
fetch is issued. -/
theorem crawl_page_bound (site : Site) (ts start_url : String)
    (maxPages maxDepth : Nat) (hmp : 1 ≤ maxPages) :
    (scrape_website site ts start_url maxPages maxDepth).results.length ≤ maxPages ∧
    (∀ (fuel : Nat) (s : CrawlState), maxPages ≤ s.visited.length →
      crawlLoop site ts start_url maxPages maxDepth fuel s = s) := by
  constructor
  · have inv := @crawlLoop_inv site ts start_url maxPages maxDepth
      (siteFuel site maxPages) _ (crawlInv_init site ts start_url maxDepth)
    have hlen : (scrape_website site ts start_url maxPages maxDepth).results.length
        = (scrape_website site ts start_url maxPages maxDepth).visited.length := by
      have := congrArg List.length inv.results_eq
      simpa [scrape_website] using this
    rw [hlen]
    exact crawlLoop_visited_le _ _ (by simp [initState])
  · intro fuel s h
    exact crawlLoop_stops fuel s h

/-- C2 witness: with `max_pages = 1` on a three-page site, at most one record
is produced. -/
theorem crawl_page_bound_witness :
    (scrape_website demoSiteNested "" "http://h/" 1 2).results.length ≤ 1 :=
  (crawl_page_bound demoSiteNested "" "http://h/" 1 2 (by decide)).1

/-- C3: no frontier entry with depth greater than `max_depth` is ever created
(every entry in the push history, at any point of the loop, has depth at most
`max_depth`), and every produced record's URL is reachable from the start URL
within `max_depth` link steps — its shortest link-distance does not exceed
`max_depth`.  (Depths are naturals, so `max_depth ≥ 0` always holds.) -/
theorem crawl_depth_bound (site : Site) (ts start_url : String)
    (maxPages maxDepth : Nat) :
    (∀ (fuel : Nat), ∀ p ∈ (crawlLoop site ts start_url maxPages maxDepth fuel
        (initState start_url)).pushLog, p.2 ≤ maxDepth) ∧
    (∀ r ∈ (scrape_website site ts start_url maxPages maxDepth).results,
      ReachWithin site start_url maxDepth r.url) := by
  constructor
  · intro fuel p hp
    exact ((crawlLoop_inv fuel (crawlInv_init site ts start_url maxDepth)).push_depth p hp).1
  · intro r hr
    have inv := @crawlLoop_inv site ts start_url maxPages maxDepth
      (siteFuel site maxPages) _ (crawlInv_init site ts start_url maxDepth)
    have hmem : r.url ∈ (scrape_website site ts start_url maxPages maxDepth).results.map
        CrawlRecord.url := List.mem_map_of_mem _ hr
    rw [show (scrape_website site ts start_url maxPages maxDepth).results
        = (crawlLoop site ts start_url maxPages maxDepth (siteFuel site maxPages)
            (initState start_url)).results from rfl] at hmem
    rw [inv.results_eq, inv.visited_eq] at hmem
    rcases List.mem_map.mp hmem with ⟨p, hp, hfst⟩
    have hpop : p ∈ (crawlLoop site ts start_url maxPages maxDepth
        (siteFuel site maxPages) (initState start_url)).popLog :=
      ((inv.success_first.trans (firstOccs_sublist _)).subset) hp
    have hpush : p ∈ (crawlLoop site ts start_url maxPages maxDepth
        (siteFuel site maxPages) (initState start_url)).pushLog := by
      rw [inv.push_split]
      exact List.mem_append_left _ hpop
    obtain ⟨hle, hreach⟩ := inv.push_depth p hpush
    rw [← hfst]
    exact hreach.mono hle

/-- C4: the successful-fetch history is grouped by non-decreasing depth (BFS
level order), it is an order-preserving selection of the first occurrences of
the push history — within a level, fetch order is discovery order, the order
in which each URL was first pushed while the previous level was processed —
and the result records correspond to that history URL-for-URL in order. -/
theorem crawl_bfs_order (site : Site) (ts start_url : String)
    (maxPages maxDepth fuel : Nat) :
    List.Pairwise (fun a b => a ≤ b)
      ((crawlLoop site ts start_url maxPages maxDepth fuel
        (initState start_url)).successLog.map Prod.snd) ∧
    (crawlLoop site ts start_url maxPages maxDepth fuel
        (initState start_url)).successLog.Sublist
      (firstOccs (crawlLoop site ts start_url maxPages maxDepth fuel
        (initState start_url)).pushLog) ∧
    (crawlLoop site ts start_url maxPages maxDepth fuel
        (initState start_url)).results.map CrawlRecord.url =
      (crawlLoop site ts start_url maxPages maxDepth fuel
        (initState start_url)).successLog.map Prod.fst := by
  have inv := @crawlLoop_inv site ts start_url maxPages maxDepth
    fuel _ (crawlInv_init site ts start_url maxDepth)
  refine ⟨?_, ?_, ?_⟩
  · have hsub : (crawlLoop site ts start_url maxPages maxDepth fuel
        (initState start_url)).successLog.Sublist
        (crawlLoop site ts start_url maxPages maxDepth fuel
          (initState start_url)).pushLog := by
      refine (inv.success_first.trans (firstOccs_sublist _)).trans ?_
      rw [inv.push_split]
      exact List.sublist_append_left _ _
    exact inv.depth_sorted.sublist (hsub.map Prod.snd)
  · refine inv.success_first.trans ?_
    rw [inv.push_split]
    exact firstOccs_append_sublist _ _
  · rw [inv.results_eq, inv.visited_eq]

/-- C5: no URL appears twice among the produced records — the URLs of the
result sequence are pairwise distinct. -/
theorem crawl_at_most_once (site : Site) (ts start_url : String)
    (maxPages maxDepth : Nat) :
    ((scrape_website site ts start_url maxPages maxDepth).results.map
      CrawlRecord.url).Nodup := by
  have inv := @crawlLoop_inv site ts start_url maxPages maxDepth
    (siteFuel site maxPages) _ (crawlInv_init site ts start_url maxDepth)
  rw [show (scrape_website site ts start_url maxPages maxDepth).results
      = (crawlLoop site ts start_url maxPages maxDepth (siteFuel site maxPages)
          (initState start_url)).results from rfl]
  rw [inv.results_eq]
  exact inv.visited_nodup

/-- C1 (amended): the VisitedSet is exactly the set of *successfully* fetched
URLs (in order of success), and no URL is ever successfully scraped twice —
the pop-time visited check filters duplicate frontier entries.  (Queue
membership is not checked at push time, a URL whose fetch failed may receive
further GETs when rediscovered, and every expanded page receives a second GET
from `get_links`; see the counterexample.) -/
theorem crawl_visited_is_success_set (site : Site) (ts start_url : String)
    (maxPages maxDepth fuel : Nat) :
    (crawlLoop site ts start_url maxPages maxDepth fuel (initState start_url)).visited =
      (crawlLoop site ts start_url maxPages maxDepth fuel
        (initState start_url)).successLog.map Prod.fst ∧
    (crawlLoop site ts start_url maxPages maxDepth fuel
        (initState start_url)).visited.Nodup := by
  have inv := @crawlLoop_inv site ts start_url maxPages maxDepth
    fuel _ (crawlInv_init site ts start_url maxDepth)
  exact ⟨inv.visited_eq, inv.visited_nodup⟩

/-- C1 counterexample: on `demoSiteFail` the URL `http://h/f` is outside the
site (its fetch fails), yet the crawl issues an HTTP GET for it twice — it is
re-enqueued and re-fetched after being rediscovered on `http://h/a` — so a URL
*is* fetched twice in one invocation and a failing page is *not* permanently
skipped.  (The full GET log also shows each expanded page fetched a second
time by `get_links`.) -/
theorem crawl_refetch_counterexample :
    fetchSite demoSiteFail "http://h/f" = none ∧
    (scrape_website demoSiteFail "" "http://h/" 10 2).fetchLog.count "http://h/f" = 2 ∧
    ¬ (scrape_website demoSiteFail "" "http://h/" 10 2).fetchLog.Nodup := by
  refine ⟨rfl, rfl, ?_⟩
  intro h
  have : (scrape_website demoSiteFail "" "http://h/" 10 2).fetchLog =
      ["http://h/", "http://h/", "http://h/f", "http://h/a", "http://h/a", "http://h/f"] := rfl
  rw [this] at h
  simp at h

/-- C6: the link set produced for frontier expansion contains exactly the
`href` targets of anchor elements, each resolved against the base URL handed
to `get_links`, restricted to resolved URLs whose netloc equals the base's
netloc (off-origin links are discarded), with the fragment stripped.  In the
crawl loop that base is always the crawl's *start* URL, not the page being
parsed: on `demoSiteNested` the link `sub` found on `http://h/docs/` is
fetched as `http://h/sub`, not `http://h/docs/sub`. -/
theorem get_links_characterization :
    (∀ (site : Site) (url base_url : String) (doc : NodeList) (u : String),
      fetchSite site url = some doc →
      (u ∈ get_links site url base_url ↔
        ∃ href ∈ anchorHrefsL doc,
          (urlparse (urljoin base_url href)).netloc = (urlparse base_url).netloc ∧
          u = stripFragment (urljoin base_url href))) ∧
    (scrape_website demoSiteNested "" "http://h/" 10 2).results.map CrawlRecord.url =
      ["http://h/", "http://h/docs/", "http://h/sub"] := by
  constructor
  · intro site url base_url doc u hdoc
    unfold get_links
    rw [hdoc]
    simpa using mem_linkFold_foldl base_url (anchorHrefsL doc) [] u
  · rfl

/-- C6 witness: the characterization applied to the root page of
`demoSiteFail`. -/
theorem get_links_characterization_witness :
    "http://h/f" ∈ get_links demoSiteFail "http://h/" "http://h/" ↔
      ∃ href ∈ anchorHrefsL (bodyDoc [aElem "f" "F", aElem "a" "A"]),
        (urlparse (urljoin "http://h/" href)).netloc = (urlparse "http://h/").netloc ∧
        "http://h/f" = stripFragment (urljoin "http://h/" href) :=
  get_links_characterization.1 demoSiteFail "http://h/" "http://h/" _ "http://h/f" rfl

/-- C7: a fetch failure is non-fatal: the crawl-loop iteration that pops a
failing URL appends no record, consumes no page-budget slot (`visited` is
unchanged), and simply continues with the rest of the frontier; and the final
result sequence contains only pages whose fetch succeeds — the failed page is
omitted. -/
theorem crawl_fetch_failure_nonfatal :
    (∀ (site : Site) (ts start_url : String) (maxDepth : Nat) (s : CrawlState)
      (url : String) (depth : Nat) (rest : List (String × Nat)),
      s.toVisit = (url, depth) :: rest → url ∉ s.visited → depth ≤ maxDepth →
      fetchSite site url = none →
      crawlStep site ts start_url maxDepth s =
        { s with toVisit := rest, popLog := s.popLog ++ [(url, depth)],
                 fetchLog := s.fetchLog ++ [url] }) ∧
    (∀ (site : Site) (ts start_url : String) (maxPages maxDepth : Nat),
      ∀ r ∈ (scrape_website site ts start_url maxPages maxDepth).results,
        fetchSite site r.url ≠ none) := by
  constructor
  · intro site ts start_url maxDepth s url depth rest htv hnv hd hf
    exact crawlStep_fetch_failure htv hnv hd hf
  · intro site ts start_url maxPages maxDepth r hr
    have inv := @crawlLoop_inv site ts start_url maxPages maxDepth
      (siteFuel site maxPages) _ (crawlInv_init site ts start_url maxDepth)
    have hmem : r.url ∈ (scrape_website site ts start_url maxPages maxDepth).results.map
        CrawlRecord.url := List.mem_map_of_mem _ hr
    rw [show (scrape_website site ts start_url maxPages maxDepth).results
        = (crawlLoop site ts start_url maxPages maxDepth (siteFuel site maxPages)
            (initState start_url)).results from rfl] at hmem
    rw [inv.results_eq] at hmem
    exact inv.visited_ok r.url hmem

/-- C7 witness: the failing URL `http://h/f` of `demoSiteFail`, popped at
depth 1, is skipped (only the logs grow), and the successfully crawled record
for `http://h/a` points to a fetchable page. -/
theorem crawl_fetch_failure_nonfatal_witness :
    crawlStep demoSiteFail "" "http://h/" 2
        ⟨["http://h/"], [("http://h/f", 1)], [], [], [], [], []⟩ =
      ⟨["http://h/"], [], [], ["http://h/f"], [("http://h/f", 1)], [], []⟩ ∧
    fetchSite demoSiteFail
      (CrawlRecord.url ⟨"http://h/a", "http://h/a", "F", 1, ""⟩) ≠ none := by
  constructor
  · exact crawl_fetch_failure_nonfatal.1 demoSiteFail "" "http://h/" 2
      _ "http://h/f" 1 [] rfl (by decide) (by decide) rfl
  · exact crawl_fetch_failure_nonfatal.2 demoSiteFail "" "http://h/" 10 2
      _ (by decide)

/-- The title component of `extractPage`, written out. -/
theorem extractPage_title_eq (doc : NodeList) (url : String) :
    (extractPage doc url).1 =
      (match findTagL "title" (decomposeL noiseTags doc) with
       | some n => getTextDefault n
       | none => url) := rfl

/-- The content component of `extractPage`, written out. -/
theorem extractPage_content_eq (doc : NodeList) (url : String) :
    (extractPage doc url).2 =
      cleanText
        (match (findTagL "main" (decomposeL noiseTags doc) <|>
                findTagL "article" (decomposeL noiseTags doc)) <|>
               findTagL "body" (decomposeL noiseTags doc) with
         | some n => getTextStripN n
         | none => getTextStripL (decomposeL noiseTags doc)) := rfl

/-- C8: extraction removes every `script`/`style`/`nav`/`footer`/`header`
element before any text is read (no such tag survives `decompose`); the title
is the first `title` element of the cleaned document in document order, else
the literal URL; the content is taken from the first match of `main`, else
`article`, else `body`, else the whole remaining document, rendered with
newline separators and stripped strings; and the final text has every line
trimmed, with empty lines discarded. -/
theorem extract_characterization (doc : NodeList) (url : String) :
    (∀ t ∈ tagsL (decomposeL noiseTags doc), t ∉ noiseTags) ∧
    (extractPage doc url).1 =
      (match (nodesL (decomposeL noiseTags doc)).find? (isTag "title") with
       | some n => getTextDefault n
       | none => url) ∧
    (extractPage doc url).2 =
      cleanText
        (match ((nodesL (decomposeL noiseTags doc)).find? (isTag "main") <|>
                (nodesL (decomposeL noiseTags doc)).find? (isTag "article")) <|>
               (nodesL (decomposeL noiseTags doc)).find? (isTag "body") with
         | some n => getTextStripN n
         | none => getTextStripL (decomposeL noiseTags doc)) ∧
    (∀ l ∈ pySplitlines (extractPage doc url).2, pyStrip l = l ∧ l ≠ "") := by
  refine ⟨?_, ?_, ?_, ?_⟩
  · intro t ht hmem
    exact decomposeL_no_noise noiseTags doc t ht hmem
  · rw [extractPage_title_eq, findTagL_eq_find]
  · rw [extractPage_content_eq, findTagL_eq_find, findTagL_eq_find, findTagL_eq_find]
  · rw [extractPage_content_eq]
    exact cleanText_lines _

theorem parseRecords_encode (l : List CrawlRecord) :
    parseRecords (l.map encodeRecord) =
      some (l.map (fun r => ⟨r.url, r.title, r.content, r.length, r.timestamp⟩)) := by
  induction l with
  | nil => rfl
  | cons r rs ih =>
    simp only [List.map_cons, parseRecords]
    rw [show parseRecord (encodeRecord r) =
        some ⟨r.url, r.title, r.content, r.length, r.timestamp⟩ from rfl, ih]

/-- C9: serializing any result sequence to the JSON format and re-parsing the
produced value yields records with identical `url`, `title`, `content` and
`length` values (and `timestamp`), record for record and in the same order. -/
theorem save_load_roundtrip (results : List CrawlRecord) :
    load_scraped_json (save_results_json results) =
      some (results.map (fun r => ⟨r.url, r.title, r.content, r.length, r.timestamp⟩)) :=
  parseRecords_encode results

/-- C10: every record of the crawl-path scraper `scrape_webpage` satisfies
`length = len(content)` exactly; in the chat layer's near-duplicate
`scrape_url`, the content is truncated to 15000 characters while `length`
reports the untruncated extracted-text length, so `length ≥ len(content)`,
with equality precisely when the extracted text fits in 15000 characters. -/
theorem length_field_contract :
    (∀ (site : Site) (ts url : String) (r : CrawlRecord),
      scrape_webpage site ts url = some r → r.length = r.content.length) ∧
    (∀ (site : Site) (url : String) (r : UrlScrapeResult),
      scrape_url site url = some r →
        r.content.length ≤ r.length ∧
        (r.length = r.content.length ↔ r.length ≤ 15000)) := by
  constructor
  · intro site ts url r h
    unfold scrape_webpage at h
    cases hf : fetchSite site url with
    | none => rw [hf] at h; simp at h
    | some doc =>
      rw [hf] at h
      simp only [Option.some.injEq] at h
      rw [← h]
  · intro site url r h
    unfold scrape_url at h
    cases hf : fetchSite site url with
    | none => rw [hf] at h; simp at h
    | some doc =>
      rw [hf] at h
      simp only [Option.some.injEq] at h
      rw [← h]
      have hlen : (pyTake 15000 (extractPage doc url).2).length
          = min 15000 (extractPage doc url).2.length := by
        show ((extractPage doc url).2.data.take 15000).length = _
        rw [List.length_take]
        rfl
      constructor
      · show (pyTake 15000 (extractPage doc url).2).length ≤ (extractPage doc url).2.length
        rw [hlen]
        omega
      · show (extractPage doc url).2.length = (pyTake 15000 (extractPage doc url).2).length ↔
          (extractPage doc url).2.length ≤ 15000
        rw [hlen]
        omega

/-- C10 witness: on the root page of `demoSiteNested` both scrapers agree
with the contract (the extracted text is short, so no truncation occurs). -/
theorem length_field_contract_witness :
    (CrawlRecord.length ⟨"http://h/", "http://h/", "Docs", 4, ""⟩ =
      (CrawlRecord.content ⟨"http://h/", "http://h/", "Docs", 4, ""⟩).length) ∧
    ((UrlScrapeResult.content ⟨"http://h/", "http://h/", "Docs", 4⟩).length ≤
      UrlScrapeResult.length ⟨"http://h/", "http://h/", "Docs", 4⟩) := by
  constructor
  · exact length_field_contract.1 demoSiteNested "" "http://h/" _ rfl
  · exact (length_field_contract.2 demoSiteNested "http://h/" _ rfl).1

/-- C3 witness: on `demoSiteNested` with `max_depth = 2`, the concrete
frontier entry `("http://h/docs/", 1)` respects the bound, and the record for
`http://h/sub` is reachable within two steps. -/
theorem crawl_depth_bound_witness :
    (("http://h/docs/", 1) : String × Nat).2 ≤ 2 ∧
    ReachWithin demoSiteNested "http://h/" 2
      (CrawlRecord.url ⟨"http://h/sub", "http://h/sub", "Leaf", 4, ""⟩) := by
  constructor
  · exact (crawl_depth_bound demoSiteNested "" "http://h/" 10 2).1
      (siteFuel demoSiteNested 10) ("http://h/docs/", 1) (by decide)
  · exact (crawl_depth_bound demoSiteNested "" "http://h/" 10 2).2
      ⟨"http://h/sub", "http://h/sub", "Leaf", 4, ""⟩ (by decide)

/-- C8 witness: on a one-anchor body the extracted content is the single
trimmed non-empty line `F`. -/
theorem extract_characterization_witness :
    pyStrip "F" = "F" ∧ ("F" : String) ≠ "" :=
  (extract_characterization (bodyDoc [aElem "f" "F"]) "u").2.2.2 "F" (by decide)
